import Mathlib

/-!
Verification of the character-level generative language model core of the
nlp-pytorch notebooks: vocabulary/codec (`stoi`/`itos`/`encode`), the windowed
example builder `get_batch`, the `LSTMGenerator` sequence model boundary, the
greedy generator `generate`, and the temperature sampler `generate_soft`.

The Python source is embedded shallowly: tensors of integer ids become
`List Nat`, logits vectors become `List ℚ` (the floating-point values the
sampling pipeline feeds to `exp` are modelled over `ℝ`), fallible operations
return `Except Err`, and the framework primitives the notebook calls
(`torch.zeros`, `torch.argmax`, `torch.multinomial`, Python list indexing and
slicing, `collections.Counter`, `torchtext.vocab.Vocab`) are modelled by their
documented behaviour.
-/

namespace NlpGen

/-- Failure conditions of the embedded code. `outOfRange` models a Python
`IndexError` (list index out of range); `negativeDim` models the
`RuntimeError` raised by `torch.zeros` on a negative dimension;
`multinomialInvalid` models the `RuntimeError` raised by `torch.multinomial`
on an invalid (non-finite / negative / zero-sum) weight vector;
`emptyReduction` models the `RuntimeError` raised by `torch.argmax` on an
empty tensor; `invalidArgument` is the spec's explicit argument-validation
condition (the source contains no such check, so no embedded operation ever
produces it). -/
inductive Err where
  | outOfRange
  | negativeDim
  | multinomialInvalid
  | emptyReduction
  | invalidArgument
  deriving DecidableEq, Repr

deriving instance DecidableEq for Except

/-- Python list indexing `l[i]`: an index `0 ≤ i < len(l)` reads position `i`;
a negative index `-len(l) ≤ i < 0` silently wraps around to `i + len(l)`;
anything else raises `IndexError`. This is the `decode` operation of the
vocabulary, written `vocab.itos[nc]` in the source. -/
def pyGet (l : List α) (i : Int) : Except Err α :=
  if i < 0 then
    if i + l.length < 0 then .error .outOfRange
    else
      match l.get? (i + l.length).toNat with
      | some a => .ok a
      | none => .error .outOfRange
  else
    match l.get? i.toNat with
    | some a => .ok a
    | none => .error .outOfRange

/-- The id lookup `vocab.stoi[s]` of a torchtext 0.x `Vocab`: `stoi` is a
`defaultdict` whose default is the unknown id `0`, updated with
`{tok: i for i, tok in enumerate(itos)}` (a later duplicate entry would win,
like a Python dict comprehension). Symbols absent from `itos` map to `0`. -/
def stoi (itos : List String) (s : String) : Nat :=
  itos.enum.foldl (fun acc p => if p.2 = s then p.1 else acc) 0

/-- The character tokenizer of notebook 5: `def char_tokenizer(words): return
list(words)`, one single-character string per character of the input. -/
def char_tokenizer (words : String) : List String :=
  words.data.map String.singleton

/-- The vocabulary encode operation (`def encode(x): return [vocab.stoi[s] for
s in tokenizer(x)]`), with the source's global `vocab` and `tokenizer` passed
explicitly. -/
def encode (itos : List String) (tokenizer : String → List String) (x : String) : List Nat :=
  (tokenizer x).map (stoi itos)

/-- Notebook 5's `enc(x)`: `encode` with the character tokenizer
(`encode(x, voc=vocab, tokenizer=char_tokenizer)`). -/
def enc (itos : List String) (x : String) : List Nat :=
  encode itos char_tokenizer x

/-- `enc` applied to a Python list of symbols (as in `enc(chars)` inside
`generate`): `char_tokenizer` of a list is `list(list)`, i.e. the list
itself, so encoding maps `stoi` over it directly. -/
def enc_list (itos : List String) (chars : List String) : List Nat :=
  chars.map (stoi itos)

/-- Python string slicing `s[i:j]` for non-negative `i`, `j`: characters
`i, …, j-1`, clamped to the length of the string. -/
def pySlice (s : String) (i j : Nat) : String :=
  String.mk ((s.data.drop i).take (j - i))

/-- The windowed example builder `get_batch(s, nchars)` of notebook 5:
`ins = torch.zeros(len(s)-nchars, nchars)`; `outs` likewise; then
`ins[i] = enc(s[i:i+nchars])` and `outs[i] = enc(s[i+1:i+nchars+1])` for
`i in range(len(s)-nchars)`. When `len(s) < nchars`, `torch.zeros` receives a
negative first dimension and raises a `RuntimeError`. -/
def get_batch (itos : List String) (s : String) (nchars : Nat) :
    Except Err (List (List Nat) × List (List Nat)) :=
  if s.length < nchars then .error .negativeDim
  else .ok
    ((List.range (s.length - nchars)).map fun i => enc itos (pySlice s i (i + nchars)),
     (List.range (s.length - nchars)).map fun i => enc itos (pySlice s (i + 1) (i + nchars + 1)))

example : enc ["<unk>", "a", "b"] "aba" = [1, 2, 1] := by decide
example : enc ["<unk>", "a", "b"] "axb" = [1, 0, 2] := by decide
example : pyGet ["u", "a"] (-1) = .ok "a" := by decide
example : pyGet ["u", "a"] 2 = .error .outOfRange := by decide
example : pyGet ["u", "a"] (-3) = .error .outOfRange := by decide
example : get_batch ["<unk>", "a", "b"] "a" 2 = .error .negativeDim := by decide
example : get_batch ["<unk>", "a", "b"] "ab" 2 = .ok ([], []) := by decide
example : get_batch ["<unk>", "a", "b"] "abab" 2 =
    .ok ([[1, 2], [2, 1]], [[2, 1], [1, 2]]) := by decide

/-! Helper lemmas about `enc` and list windows. -/

@[simp] lemma isOk_ok {α : Type} (a : α) : (Except.ok a : Except Err α).isOk = true := rfl

@[simp] lemma isOk_error {α : Type} (e : Err) : (Except.error e : Except Err α).isOk = false := rfl

lemma enc_eq_map (itos : List String) (s : String) :
    enc itos s = s.data.map (fun c => stoi itos (String.singleton c)) := by
  simp [enc, encode, char_tokenizer, List.map_map]

lemma enc_pySlice (itos : List String) (s : String) (i j : Nat) :
    enc itos (pySlice s i j) = ((enc itos s).drop i).take (j - i) := by
  simp only [enc_eq_map, pySlice, List.map_take, List.map_drop]

lemma getD_take_drop (l : List Nat) (a w i : Nat) (h : i < w) :
    ((l.drop a).take w).getD i 0 = l.getD (a + i) 0 := by
  simp [List.getD_eq_getElem?_getD, List.getElem?_take, h, List.getElem?_drop]

lemma getD_range_map {β : Type} (f : Nat → β) (n k : Nat) (d : β) (h : k < n) :
    (((List.range n).map f).getD k d) = f k := by
  simp [List.getD_eq_getElem?_getD, List.getElem?_map, List.getElem?_range h]

/-- C1 (amended): for a source of length `L ≥ w`, `get_batch` returns exactly
`L - w` windows ordered by increasing start position (window `k` is the
encoded slice starting at `k`), with `target[k][i] = input[k][i+1]` for
`i < w-1` and consecutive windows overlapping by `w-1` positions; in
particular a source of length exactly `w` yields an empty result. A source
shorter than `w`, however, is an error (`torch.zeros` receives a negative
dimension), not an empty result as the original claim states. -/
theorem C1_window_coverage (itos : List String) (s : String) (w : Nat) :
    (s.length < w → get_batch itos s w = .error .negativeDim) ∧
    (w ≤ s.length →
      ∃ ins outs, get_batch itos s w = .ok (ins, outs) ∧
        ins.length = s.length - w ∧ outs.length = s.length - w ∧
        (∀ k, k < s.length - w →
          ins.getD k [] = ((enc itos s).drop k).take w ∧
          outs.getD k [] = ((enc itos s).drop (k + 1)).take w) ∧
        (∀ k i, k < s.length - w → i + 1 < w →
          (outs.getD k []).getD i 0 = (ins.getD k []).getD (i + 1) 0) ∧
        (∀ k i, k + 1 < s.length - w → i + 1 < w →
          (ins.getD (k + 1) []).getD i 0 = (ins.getD k []).getD (i + 1) 0)) := by
  constructor
  · intro h
    simp [get_batch, h]
  · intro h
    have hnot : ¬ s.length < w := Nat.not_lt.mpr h
    have hrow : ∀ k, k < s.length - w →
        ((List.range (s.length - w)).map
          (fun i => enc itos (pySlice s i (i + w)))).getD k [] =
          ((enc itos s).drop k).take w := by
      intro k hk
      rw [getD_range_map _ _ _ _ hk, enc_pySlice]
      congr 1
      omega
    have hrow' : ∀ k, k < s.length - w →
        ((List.range (s.length - w)).map
          (fun i => enc itos (pySlice s (i + 1) (i + w + 1)))).getD k [] =
          ((enc itos s).drop (k + 1)).take w := by
      intro k hk
      rw [getD_range_map _ _ _ _ hk, enc_pySlice]
      congr 1
      omega
    refine ⟨(List.range (s.length - w)).map (fun i => enc itos (pySlice s i (i + w))),
      (List.range (s.length - w)).map (fun i => enc itos (pySlice s (i + 1) (i + w + 1))),
      by simp [get_batch, hnot], by simp, by simp, ?_, ?_, ?_⟩
    · intro k hk
      exact ⟨hrow k hk, hrow' k hk⟩
    · intro k i hk hi
      rw [hrow k hk, hrow' k hk, getD_take_drop _ _ _ _ (by omega),
        getD_take_drop _ _ _ _ hi]
      congr 1
      omega
    · intro k i hk hi
      rw [hrow k (by omega), hrow (k + 1) hk, getD_take_drop _ _ _ _ (by omega),
        getD_take_drop _ _ _ _ hi]
      congr 1
      omega

/-- C1 counterexample: a source of length 1 with window size 2 is shorter
than `w + 1`; the claim says this yields an empty result and is not an error,
but `get_batch` fails (`torch.zeros(len(s)-nchars, nchars)` is called with
the negative dimension `-1`). -/
theorem C1_counterexample : get_batch ["<unk>"] "a" 2 = .error .negativeDim := by
  decide

/-- C1 witness: the amended theorem applied to the source "abab" with window
size 2. -/
theorem C1_witness :
    2 ≤ ("abab" : String).length ∧
    (∃ ins outs, get_batch ["<unk>", "a", "b"] "abab" 2 = .ok (ins, outs) ∧
      ins.length = ("abab" : String).length - 2 ∧
      outs.length = ("abab" : String).length - 2 ∧
      (∀ k, k < ("abab" : String).length - 2 →
        ins.getD k [] = ((enc ["<unk>", "a", "b"] "abab").drop k).take 2 ∧
        outs.getD k [] = ((enc ["<unk>", "a", "b"] "abab").drop (k + 1)).take 2) ∧
      (∀ k i, k < ("abab" : String).length - 2 → i + 1 < 2 →
        (outs.getD k []).getD i 0 = (ins.getD k []).getD (i + 1) 0) ∧
      (∀ k i, k + 1 < ("abab" : String).length - 2 → i + 1 < 2 →
        (ins.getD (k + 1) []).getD i 0 = (ins.getD k []).getD (i + 1) 0)) :=
  ⟨by decide, (C1_window_coverage ["<unk>", "a", "b"] "abab" 2).2 (by decide)⟩

/-- C5 (amended): `decode` (the Python list lookup `vocab.itos[id]`) fails
with an `OutOfRange` condition iff `id` lies outside `[-vocab_size,
vocab_size)`; for `id` in `[0, vocab_size)` it returns the symbol stored at
`id`; but for `id` in `[-vocab_size, -1]` it does not fail: Python list
indexing silently remaps the id to `id + vocab_size`. -/
theorem C5_decode_ranges (itos : List String) (id : Int) :
    ((pyGet itos id).isOk = true ↔ -(itos.length : Int) ≤ id ∧ id < itos.length) ∧
    (0 ≤ id → id < itos.length →
      pyGet itos id = .ok (itos.getD id.toNat "")) ∧
    (id < 0 → -(itos.length : Int) ≤ id →
      pyGet itos id = .ok (itos.getD (id + itos.length).toNat "")) := by
  refine ⟨?_, ?_, ?_⟩
  · by_cases hneg : id < 0
    · by_cases hlow : id + (itos.length : Int) < 0
      · simp only [pyGet, if_pos hneg, if_pos hlow, isOk_error]
        constructor
        · intro h
          exact absurd h (by decide)
        · intro h
          omega
      · have hj : (id + (itos.length : Int)).toNat < itos.length := by omega
        simp only [pyGet, if_pos hneg, if_neg hlow,
          List.get?_eq_getElem?, List.getElem?_eq_getElem hj, isOk_ok]
        constructor
        · intro _
          omega
        · intro _
          trivial
    · by_cases hhi : id < (itos.length : Int)
      · have hj : id.toNat < itos.length := by omega
        simp only [pyGet, if_neg hneg,
          List.get?_eq_getElem?, List.getElem?_eq_getElem hj, isOk_ok]
        constructor
        · intro _
          omega
        · intro _
          trivial
      · have hj : itos.length ≤ id.toNat := by omega
        simp only [pyGet, if_neg hneg, List.get?_eq_getElem?,
          List.getElem?_eq_none hj, isOk_error]
        constructor
        · intro h
          exact absurd h (by decide)
        · intro h
          omega
  · intro h0 hhi
    have hj : id.toNat < itos.length := by omega
    simp only [pyGet, if_neg (by omega : ¬ id < 0), List.get?_eq_getElem?,
      List.getElem?_eq_getElem hj]
    rw [List.getD_eq_getElem _ _ hj]
  · intro hneg hlow
    have hj : (id + (itos.length : Int)).toNat < itos.length := by omega
    simp only [pyGet, if_pos hneg, if_neg (by omega : ¬ id + (itos.length : Int) < 0),
      List.get?_eq_getElem?, List.getElem?_eq_getElem hj]
    rw [List.getD_eq_getElem _ _ hj]

/-- C5 counterexample: `id = -1` is outside `[0, vocab_size)`, so the claim
requires an `OutOfRange` failure, but the lookup succeeds and silently remaps
`-1` to the last symbol. -/
theorem C5_counterexample :
    pyGet ["<unk>", "a"] (-1) = .ok "a" ∧ (-1 : Int) < 0 := by
  constructor
  · decide
  · decide

/-- C5 witness: the amended theorem applied to a two-symbol vocabulary at
id 1. -/
theorem C5_witness :
    (0 : Int) ≤ 1 ∧ pyGet ["<unk>", "a"] 1 = .ok "a" := by
  refine ⟨by decide, ?_⟩
  have h := (C5_decode_ranges ["<unk>", "a"] 1).2.1 (by decide) (by decide)
  simpa using h

/-! Lemmas about the `stoi` lookup (last-wins enumerate dict with default 0). -/

lemma foldl_pick_eq (s : String) :
    ∀ (l : List (Nat × String)) (d : Nat), (∀ p ∈ l, p.2 ≠ s) →
      l.foldl (fun acc p => if p.2 = s then p.1 else acc) d = d := by
  intro l
  induction l with
  | nil => intro d _; rfl
  | cons p l ih =>
    intro d h
    have hp : p.2 ≠ s := h p (List.mem_cons_self p l)
    simp only [List.foldl_cons, if_neg hp]
    exact ih d (fun q hq => h q (List.mem_cons_of_mem p hq))

lemma enumFrom_snd_mem :
    ∀ (l : List String) (n : Nat) (p : Nat × String),
      p ∈ List.enumFrom n l → p.2 ∈ l := by
  intro l
  induction l with
  | nil => intro n p h; simp [List.enumFrom] at h
  | cons a l ih =>
    intro n p h
    simp only [List.enumFrom, List.mem_cons] at h
    rcases h with h | h
    · subst h; exact List.mem_cons_self a l
    · exact List.mem_cons_of_mem a (ih (n + 1) p h)

lemma stoi_foldl_enumFrom (s : String) :
    ∀ (l : List String) (n d : Nat), l.Nodup → s ∈ l →
      (List.enumFrom n l).foldl (fun acc p => if p.2 = s then p.1 else acc) d =
        n + l.indexOf s := by
  intro l
  induction l with
  | nil => intro n d _ h; simp at h
  | cons a l ih =>
    intro n d hnd hmem
    rcases List.nodup_cons.mp hnd with ⟨hna, hndl⟩
    by_cases ha : a = s
    · subst ha
      have hnot : ∀ p ∈ List.enumFrom (n + 1) l, p.2 ≠ a := by
        intro p hp hcontra
        exact hna (hcontra ▸ enumFrom_snd_mem l (n + 1) p hp)
      simp only [List.enumFrom, List.foldl_cons, List.indexOf_cons_self,
        eq_self_iff_true, if_true]
      rw [foldl_pick_eq a (List.enumFrom (n + 1) l) n hnot]
      omega
    · have hmem' : s ∈ l := by
        rcases List.mem_cons.mp hmem with h | h
        · exact absurd h.symm ha
        · exact h
      simp only [List.enumFrom, List.foldl_cons, if_neg ha]
      rw [ih (n + 1) d hndl hmem', List.indexOf_cons_ne _ (by simpa using ha)]
      omega

lemma stoi_eq_indexOf (itos : List String) (s : String)
    (hnd : itos.Nodup) (hmem : s ∈ itos) : stoi itos s = itos.indexOf s := by
  have h := stoi_foldl_enumFrom s itos 0 0 hnd hmem
  simpa [stoi, List.enum] using h

lemma stoi_not_mem (itos : List String) (s : String) (h : s ∉ itos) :
    stoi itos s = 0 := by
  unfold stoi
  apply foldl_pick_eq
  intro p hp hcontra
  exact h (hcontra ▸ enumFrom_snd_mem itos 0 p (by simpa [List.enum] using hp))

lemma stoi_lt_length (itos : List String) (s : String)
    (hnd : itos.Nodup) (hmem : s ∈ itos) : stoi itos s < itos.length := by
  rw [stoi_eq_indexOf itos s hnd hmem]
  exact List.indexOf_lt_length.mpr hmem

lemma getElem_stoi (itos : List String) (s : String)
    (hnd : itos.Nodup) (hmem : s ∈ itos) :
    itos[stoi itos s]? = some s := by
  rw [stoi_eq_indexOf itos s hnd hmem]
  have h := List.indexOf_lt_length.mpr hmem
  rw [List.getElem?_eq_getElem h]
  exact congrArg some (List.getElem_indexOf h)

/-- C6: `encode` never fails (it is a total function): it maps the tokenizer
output elementwise through `stoi`, so the result has exactly one id per
symbol, in source order; a symbol present in a duplicate-free vocabulary
maps to the id whose `itos` entry is that symbol, and a symbol absent from
the vocabulary maps to the reserved unknown id 0. -/
theorem C6_encode_total (itos : List String) (tokenizer : String → List String) (x : String) :
    (encode itos tokenizer x).length = (tokenizer x).length ∧
    (∀ i : Nat, (encode itos tokenizer x)[i]? = ((tokenizer x)[i]?).map (stoi itos)) ∧
    (∀ s, itos.Nodup → s ∈ itos → itos[stoi itos s]? = some s) ∧
    (∀ s, s ∉ itos → stoi itos s = 0) := by
  refine ⟨by simp [encode], ?_, ?_, ?_⟩
  · intro i
    simp [encode, List.getElem?_map]
  · intro s hnd hmem
    exact getElem_stoi itos s hnd hmem
  · intro s hs
    exact stoi_not_mem itos s hs

/-- C6 witness: the symbol "z" is absent from the vocabulary and encodes to
the unknown id 0; the symbol "a" is present and round-trips. -/
theorem C6_witness :
    ("z" ∉ ["<unk>", "a"] ∧ stoi ["<unk>", "a"] "z" = 0) ∧
    (("<unk>" :: ["a"]).Nodup ∧ "a" ∈ ["<unk>", "a"] ∧
      ["<unk>", "a"][stoi ["<unk>", "a"] "a"]? = some "a") :=
  ⟨⟨by decide, (C6_encode_total ["<unk>", "a"] char_tokenizer "z").2.2.2 "z" (by decide)⟩,
   ⟨by decide, by decide,
    (C6_encode_total ["<unk>", "a"] char_tokenizer "a").2.2.1 "a" (by decide) (by decide)⟩⟩

/-- C10: character-level encoding commutes with Python slicing: `enc(s[i:j])`
is the slice `enc(s)[i:j]` (as drop-then-take), because the character
tokenizer emits exactly one symbol per character; consequently each window
`k` that `get_batch` builds by re-encoding `s[k:k+w]` equals the length-`w`
slice of the encoded full sequence starting at `k`. -/
theorem C10_enc_slice_commute :
    (∀ (itos : List String) (s : String) (i j : Nat),
      enc itos (pySlice s i j) = ((enc itos s).drop i).take (j - i)) ∧
    (∀ (itos : List String) (s : String) (w k : Nat)
      (ins outs : List (List Nat)),
      get_batch itos s w = .ok (ins, outs) → k < s.length - w →
      ins.getD k [] = ((enc itos s).drop k).take w) := by
  constructor
  · intro itos s i j
    exact enc_pySlice itos s i j
  · intro itos s w k ins outs h hk
    by_cases hlt : s.length < w
    · simp [get_batch, hlt] at h
    · simp only [get_batch, if_neg hlt, Except.ok.injEq, Prod.mk.injEq] at h
      rw [← h.1, getD_range_map _ _ _ _ hk, enc_pySlice]
      congr 1
      omega

/-- C10 witness: the second part applied to the source "abab" with window
size 2 at window index 1. -/
theorem C10_witness :
    get_batch ["<unk>", "a", "b"] "abab" 2 = .ok ([[1, 2], [2, 1]], [[2, 1], [1, 2]]) ∧
    1 < ("abab" : String).length - 2 ∧
    [[1, 2], [2, 1]].getD 1 [] = ((enc ["<unk>", "a", "b"] "abab").drop 1).take 2 :=
  ⟨by decide, by decide,
   C10_enc_slice_commute.2 ["<unk>", "a", "b"] "abab" 2 1 [[1, 2], [2, 1]] [[2, 1], [1, 2]]
     (by decide) (by decide)⟩

/-! The sequence model. -/

/-- The `LSTMGenerator` module of notebook 5. `torch.nn.LSTM(vocab_size,
hidden_dim, batch_first=True)` is the external recurrent-cell collaborator:
`rnn` is its single-position state update (input vector to hidden output and
new state), applied position by position over a sequence as the framework
documents; `W` and `b` are the parameters of the output layer
`fc = torch.nn.Linear(hidden_dim, vocab_size)`; `s0` is the zero initial
state the framework supplies when the state argument is absent (`s=None`). -/
structure LSTMGenerator (σ : Type) where
  vocab_size : Nat
  rnn : List ℚ → σ → List ℚ × σ
  s0 : σ
  W : List (List ℚ)
  b : List ℚ

/-- `torch.nn.functional.one_hot(x, vocab_size)` for a single id. -/
def one_hot (n x : Nat) : List ℚ :=
  (List.range n).map (fun j => if j = x then 1 else 0)

/-- Dot product of two vectors (a `torch.nn.Linear` row acting on the hidden
vector). -/
def dotQ (xs ys : List ℚ) : ℚ :=
  ((xs.zip ys).map (fun p => p.1 * p.2)).sum

/-- `torch.nn.Linear(hidden_dim, vocab_size)`: `W h + b`, one output per row
of `W`. -/
def fc (W : List (List ℚ)) (b : List ℚ) (h : List ℚ) : List ℚ :=
  (W.zip b).map (fun p => dotQ p.1 h + p.2)

/-- The documented sequence semantics of `torch.nn.LSTM`: apply the cell at
each position in order, threading the state, and collect the per-position
hidden outputs. -/
def rnn_run (cell : List ℚ → σ → List ℚ × σ) : List (List ℚ) → σ → List (List ℚ) × σ
  | [], s => ([], s)
  | x :: xs, s =>
    let h1 := cell x s
    let rest := rnn_run cell xs h1.2
    (h1.1 :: rest.1, rest.2)

/-- `LSTMGenerator.forward(x, s)`: one-hot encode each id, run the LSTM over
the whole sequence, then apply `fc` at every position. This is the spec's
`step_batch`. -/
def forward (net : LSTMGenerator σ) (x : List Nat) (s : σ) : List (List ℚ) × σ :=
  let oh := x.map (one_hot net.vocab_size)
  let r := rnn_run net.rnn oh s
  (r.1.map (fc net.W net.b), r.2)

/-- The spec's `step`: the model invoked on a single id
(`net(nc.view(1,-1), s)` in the source), returning the one logits vector and
the new state. -/
def step (net : LSTMGenerator σ) (x : Nat) (s : σ) : List ℚ × σ :=
  let r := forward net [x] s
  (r.1.getLastD [], r.2)

/-- Calling `step` repeatedly over a sequence while threading the state (the
spec's repeated-call form of `step_batch`). -/
def step_iter (net : LSTMGenerator σ) : List Nat → σ → List (List ℚ) × σ
  | [], s => ([], s)
  | x :: xs, s =>
    let o := step net x s
    let rest := step_iter net xs o.2
    (o.1 :: rest.1, rest.2)

/-- C7: `step_batch` (`forward` on the whole id sequence) produces, position
by position, exactly the same logits vectors and the same final state as
calling `step` on each id while threading the state through — exact
equality. -/
theorem C7_step_batch_equiv (σ : Type) (net : LSTMGenerator σ) (xs : List Nat) (s : σ) :
    forward net xs s = step_iter net xs s := by
  induction xs generalizing s with
  | nil => rfl
  | cons x xs ih =>
    simp only [forward, step_iter, step, List.map_cons, rnn_run, ← ih]
    rfl

/-! The greedy generator. -/

/-- `torch.argmax` on a one-dimensional tensor: the index of the first
maximal value (so ties go to the lowest index). -/
def argmax : List ℚ → Nat
  | [] => 0
  | x :: xs =>
    match xs with
    | [] => 0
    | _ :: _ => if x < xs.getD (argmax xs) 0 then argmax xs + 1 else 0

lemma argmax_cons (x y : ℚ) (t : List ℚ) :
    argmax (x :: y :: t) =
      if x < (y :: t).getD (argmax (y :: t)) 0 then argmax (y :: t) + 1 else 0 := rfl

lemma argmax_lt_length : ∀ (l : List ℚ), l ≠ [] → argmax l < l.length := by
  intro l
  induction l with
  | nil => intro h; exact absurd rfl h
  | cons x xs ih =>
    intro _
    cases xs with
    | nil => rw [show argmax [x] = 0 from rfl]; simp
    | cons y t =>
      rw [argmax_cons]
      by_cases hc : x < (y :: t).getD (argmax (y :: t)) 0
      · rw [if_pos hc]
        have := ih (by simp)
        simp only [List.length_cons] at this ⊢
        omega
      · rw [if_neg hc]
        simp


lemma argmax_is_max : ∀ (l : List ℚ) (j : Nat), j < l.length →
    l.getD j 0 ≤ l.getD (argmax l) 0 := by
  intro l
  induction l with
  | nil => intro j h; simp at h
  | cons x xs ih =>
    intro j hj
    cases xs with
    | nil =>
      cases j with
      | zero => rw [show argmax [x] = 0 from rfl]
      | succ j => simp at hj
    | cons y t =>
      rw [argmax_cons]
      by_cases hc : x < (y :: t).getD (argmax (y :: t)) 0
      · rw [if_pos hc]
        cases j with
        | zero => simpa using le_of_lt hc
        | succ j => simpa using ih j (by simpa using hj)
      · rw [if_neg hc]
        cases j with
        | zero => simp
        | succ j =>
          simp only [List.getD_cons_succ, List.getD_cons_zero]
          exact le_trans (ih j (by simpa using hj)) (not_lt.mp hc)


lemma argmax_first : ∀ (l : List ℚ) (j : Nat), j < l.length →
    l.getD j 0 = l.getD (argmax l) 0 → argmax l ≤ j := by
  intro l
  induction l with
  | nil => intro j h; simp at h
  | cons x xs ih =>
    intro j hj heq
    cases xs with
    | nil => rw [show argmax [x] = 0 from rfl]; omega
    | cons y t =>
      rw [argmax_cons] at heq ⊢
      by_cases hc : x < (y :: t).getD (argmax (y :: t)) 0
      · rw [if_pos hc] at heq ⊢
        cases j with
        | zero =>
          simp only [List.getD_cons_zero, List.getD_cons_succ] at heq
          rw [← heq] at hc
          exact absurd hc (lt_irrefl x)
        | succ j =>
          simp only [List.getD_cons_succ] at heq
          have := ih j (by simpa using hj) heq
          omega
      · rw [if_neg hc]
        omega


/-- `pyGet` at a non-negative in-range index reads the list entry. -/
lemma pyGet_nat (l : List String) (n : Nat) (h : n < l.length) :
    pyGet l (n : Int) = .ok (l.getD n "") := by
  have hj : ((n : Int)).toNat < l.length := by omega
  simp only [pyGet, if_neg (by omega : ¬ (n : Int) < 0),
    List.get?_eq_getElem?, List.getElem?_eq_getElem hj]
  rw [List.getD_eq_getElem _ _ (by simpa using hj)]
  simp

/-- The loop body of `generate`: at each of `size` steps read the final
output position `out[0][-1]`, take `torch.argmax`, decode via
`vocab.itos[nc]`, append the symbol, and feed `nc` plus the state back into
the model. -/
def gen_loop (net : LSTMGenerator σ) (itos : List String) :
    Nat → List (List ℚ) → σ → List String → Except Err (List String)
  | 0, _, _, chars => .ok chars
  | n + 1, out, s, chars =>
    match out.getLast? with
    | none => .error .outOfRange
    | some logits =>
      if logits.isEmpty then .error .emptyReduction
      else
        match pyGet itos (argmax logits : Int) with
        | .error e => .error e
        | .ok sym =>
          let r := forward net [argmax logits] s
          gen_loop net itos n r.1 r.2 (chars ++ [sym])

/-- Notebook 5's `generate(net, size, start)`: `chars = list(start)`; prime
with `out, s = net(enc(chars))`; run the greedy loop `size` times; return
`''.join(chars)`. -/
def generate (net : LSTMGenerator σ) (itos : List String) (size : Nat) (start : String) :
    Except Err String :=
  let chars := char_tokenizer start
  let r := forward net (enc_list itos chars) net.s0
  (gen_loop net itos size r.1 r.2 chars).map String.join

/-- The greedy id recurrence exactly as §4.4 of the spec words it: repeat
`length` times — pick the arg-max id (lowest id on ties), feed that id plus
the current state into `step`, collect the ids. Stated from the spec to
compare `generate` against. -/
def greedy_ids (net : LSTMGenerator σ) : Nat → List ℚ → σ → List Nat
  | 0, _, _ => []
  | n + 1, logits, s =>
    let nc := argmax logits
    let r := step net nc s
    nc :: greedy_ids net n r.1 r.2

/-! Structural lemmas for the generator proofs. -/

lemma fc_length (W : List (List ℚ)) (b h : List ℚ) :
    (fc W b h).length = (W.zip b).length := by
  simp [fc]

lemma rnn_run_length (cell : List ℚ → σ → List ℚ × σ) :
    ∀ (xs : List (List ℚ)) (s : σ), (rnn_run cell xs s).1.length = xs.length := by
  intro xs
  induction xs with
  | nil => intro s; rfl
  | cons x xs ih => intro s; simp [rnn_run, ih]

lemma forward_length (net : LSTMGenerator σ) (x : List Nat) (s : σ) :
    (forward net x s).1.length = x.length := by
  simp [forward, rnn_run_length]

lemma forward_row_length (net : LSTMGenerator σ) (x : List Nat) (s : σ) :
    ∀ row ∈ (forward net x s).1, row.length = (net.W.zip net.b).length := by
  intro row hrow
  simp only [forward, List.mem_map] at hrow
  obtain ⟨h, _, rfl⟩ := hrow
  exact fc_length net.W net.b h

lemma step_row_length (net : LSTMGenerator σ) (x : Nat) (s : σ) :
    (step net x s).1.length = (net.W.zip net.b).length := by
  simp [step, forward, rnn_run, fc]

lemma forward_single (net : LSTMGenerator σ) (x : Nat) (s : σ) :
    forward net [x] s = ([(step net x s).1], (step net x s).2) := rfl

lemma getLast?_eq_getLastD {α : Type} (l : List α) (d : α) (h : l ≠ []) :
    l.getLast? = some (l.getLastD d) := by
  rw [List.getLastD_eq_getLast?, List.getLast?_eq_getLast l h]
  rfl

lemma getLastD_mem {α : Type} (l : List α) (d : α) (h : l ≠ []) :
    l.getLastD d ∈ l := by
  rw [List.getLastD_eq_getLast?, List.getLast?_eq_getLast l h]
  exact List.getLast_mem h

/-- The greedy loop realizes the spec's recurrence: starting from any output
whose final logits row has the model's output dimension, `gen_loop` succeeds
and appends exactly the decoded `greedy_ids`. -/
lemma gen_loop_eq (net : LSTMGenerator σ) (itos : List String)
    (hD : 0 < (net.W.zip net.b).length)
    (hle : (net.W.zip net.b).length ≤ itos.length) :
    ∀ (n : Nat) (out : List (List ℚ)) (s : σ) (chars : List String) (logits : List ℚ),
      out.getLast? = some logits → logits.length = (net.W.zip net.b).length →
      gen_loop net itos n out s chars =
        .ok (chars ++ (greedy_ids net n logits s).map (fun nc => itos.getD nc "")) := by
  intro n
  induction n with
  | zero =>
    intro out s chars logits _ _
    simp [gen_loop, greedy_ids]
  | succ n ih =>
    intro out s chars logits hlast hlen
    have hne : logits ≠ [] := by
      intro hnil
      rw [hnil] at hlen
      simp only [List.length_nil] at hlen
      rw [← hlen] at hD
      exact Nat.lt_irrefl 0 hD
    have hfalse : logits.isEmpty = false := by
      cases logits with
      | nil => exact absurd rfl hne
      | cons a t => rfl
    have harg : argmax logits < itos.length := by
      have h1 : argmax logits < logits.length := argmax_lt_length logits hne
      rw [hlen] at h1
      exact lt_of_lt_of_le h1 hle
    have h1 : (forward net [argmax logits] s).1.getLast? =
        some ((step net (argmax logits) s).1) := by
      rw [forward_single]
      rfl
    have h2 : (step net (argmax logits) s).1.length = (net.W.zip net.b).length :=
      step_row_length net (argmax logits) s
    simp only [gen_loop, hlast]
    rw [if_neg (by simp [hfalse])]
    simp only [pyGet_nat itos (argmax logits) harg]
    rw [show (forward net [argmax logits] s).2 = (step net (argmax logits) s).2 from rfl]
    rw [ih (forward net [argmax logits] s).1 (step net (argmax logits) s).2
      (chars ++ [itos.getD (argmax logits) ""]) (step net (argmax logits) s).1
      (by rw [show (forward net [argmax logits] s).1 = [(step net (argmax logits) s).1] from rfl]; rfl) h2]
    simp [greedy_ids]

/-- A concrete model whose step always gives id 2 the highest logit: hidden
dimension 1, cell output constantly `[1]`, and an `fc` whose row 2 reads it
while all other rows are zero. -/
def exNet : LSTMGenerator Unit :=
  { vocab_size := 4, rnn := fun _ _ => ([1], ()), s0 := (),
    W := [[0], [0], [1], [0]], b := [0, 0, 0, 0] }

/-- C4: `generate` primes on the encoded seed, then repeats `length` times —
picks the id with the maximal logit with ties broken by the lowest id
(`argmax` is the first maximal index: it is maximal, and any position
carrying the same value has an index at least as large), decodes and appends
it, and feeds that id plus the current state back into the model — so
`generate` returns the seed concatenated with the symbols decoded from the
spec's `greedy_ids` recurrence. For the vocabulary `{<unk>:0, a:1, b:2,
' ':3}` and a model whose step always gives id 2 the highest logit,
`generate(seed="a", length=3)` returns "abbb". -/
theorem C4_greedy_generate :
    (∀ (l : List ℚ), l ≠ [] →
      argmax l < l.length ∧
      (∀ j, j < l.length → l.getD j 0 ≤ l.getD (argmax l) 0) ∧
      (∀ j, j < l.length → l.getD j 0 = l.getD (argmax l) 0 → argmax l ≤ j)) ∧
    (∀ (σ : Type) (net : LSTMGenerator σ) (itos : List String) (size : Nat) (start : String),
      0 < (net.W.zip net.b).length →
      (net.W.zip net.b).length ≤ itos.length →
      start ≠ "" →
      generate net itos size start =
        .ok (String.join (char_tokenizer start ++
          (greedy_ids net size
            ((forward net (enc_list itos (char_tokenizer start)) net.s0).1.getLastD [])
            (forward net (enc_list itos (char_tokenizer start)) net.s0).2).map
            (fun nc => itos.getD nc "")))) ∧
    generate exNet ["<unk>", "a", "b", " "] 3 "a" = .ok "abbb" := by
  refine ⟨?_, ?_, ?_⟩
  · intro l hne
    exact ⟨argmax_lt_length l hne, fun j hj => argmax_is_max l j hj,
      fun j hj heq => argmax_first l j hj heq⟩
  · intro σ net itos size start hD hle hstart
    have hlen : (forward net (enc_list itos (char_tokenizer start)) net.s0).1.length =
        (char_tokenizer start).length := by
      rw [forward_length]
      simp [enc_list]
    have hcne : (char_tokenizer start).length ≠ 0 := by
      simp only [char_tokenizer, List.length_map, ne_eq, List.length_eq_zero]
      intro h
      exact hstart (String.ext_iff.mpr h)
    have hne : (forward net (enc_list itos (char_tokenizer start)) net.s0).1 ≠ [] := by
      intro h
      rw [h] at hlen
      exact hcne hlen.symm
    have hlast := getLast?_eq_getLastD
      (forward net (enc_list itos (char_tokenizer start)) net.s0).1 [] hne
    have hrowlen := forward_row_length net (enc_list itos (char_tokenizer start)) net.s0
      _ (getLastD_mem _ [] hne)
    simp only [generate]
    rw [gen_loop_eq net itos hD hle size _ _ _ _ hlast hrowlen]
    rfl
  · norm_num [generate, gen_loop, forward, rnn_run, fc, dotQ, one_hot, enc_list,
      char_tokenizer, stoi, step, argmax, pyGet, exNet, String.join]
    decide

/-- C4 witness: the refinement applied to the concrete model and seed "b"
with one generation step. -/
theorem C4_witness :
    0 < (exNet.W.zip exNet.b).length ∧
    generate exNet ["<unk>", "a", "b", " "] 1 "b" = .ok "bb" := by
  refine ⟨by decide, ?_⟩
  have h := C4_greedy_generate.2.1 Unit exNet ["<unk>", "a", "b", " "] 1 "b"
    (by decide) (by decide) (by decide)
  rw [h]
  norm_num [greedy_ids, forward, rnn_run, fc, dotQ, one_hot, enc_list,
    char_tokenizer, stoi, step, argmax, exNet, String.join]
  decide

/-! The torchtext 0.x vocabulary build
(`vocab = torchtext.vocab.Vocab(counter, min_freq=1)`). -/

/-- Python string comparison `s < t`: lexicographic on characters (code
points), written as an executable Bool. -/
def strLtB : List Char → List Char → Bool
  | [], [] => false
  | [], _ :: _ => true
  | _ :: _, [] => false
  | a :: as, b :: bs => if a < b then true else if b < a then false else strLtB as bs

/-- Python string comparison `s <= t`, i.e. `not (t < s)`. -/
def strLeB (s t : String) : Bool := !(strLtB t.data s.data)

/-- `collections.Counter.update` with one symbol: increment a present key in
place (keeping its position) or append a new key with count 1 (Python dicts
preserve insertion order). -/
def counter_update (c : List (String × Nat)) (t : String) : List (String × Nat) :=
  if c.any (fun p => p.1 = t) then
    c.map (fun p => if p.1 = t then (p.1, p.2 + 1) else p)
  else c ++ [(t, 1)]

/-- `counter = collections.Counter(); for (label, line) in train_dataset:
counter.update(tokenizer(line))`: tally symbol frequencies over the corpus,
keys in first-seen order. -/
def counter_of (tokenizer : String → List String) (corpus : List String) :
    List (String × Nat) :=
  corpus.foldl (fun c line => (tokenizer line).foldl counter_update c) []

/-- The default `specials` argument of `torchtext.vocab.Vocab`. -/
def specials : List String := ["<unk>", "<pad>"]

/-- The order of `words_and_frequencies` in `torchtext.vocab.Vocab.__init__`:
the library sorts the counter items by token and then stable-sorts by
frequency descending ("sort by frequency, then alphabetically" in its
source); since counter keys are distinct, the two stable passes produce
exactly the unique list sorted by this combined relation. -/
def vocabLe (a b : String × Nat) : Prop :=
  b.2 < a.2 ∨ (a.2 = b.2 ∧ strLeB a.1 b.1 = true)

instance : DecidableRel vocabLe := fun a b => by
  unfold vocabLe
  infer_instance

/-- The sorted, special-free `words_and_frequencies` of
`torchtext.vocab.Vocab.__init__`: specials are deleted from the counter
before sorting, and the `for word, freq` loop breaks at the first
`freq < min_freq` — a take-while, as the list is frequency-sorted
(`min_freq` is 1 in the source). -/
def words_and_frequencies (c : List (String × Nat)) : List (String × Nat) :=
  (List.insertionSort vocabLe (c.filter (fun p => ¬ p.1 ∈ specials))).takeWhile
    (fun p => 1 ≤ p.2)

/-- `Vocab.itos`: the specials first, then the sorted words. -/
def vocab_itos (tokenizer : String → List String) (corpus : List String) : List String :=
  specials ++ (words_and_frequencies (counter_of tokenizer corpus)).map (fun p => p.1)

example : counter_of char_tokenizer ["ba"] = [("b", 1), ("a", 1)] := by decide
example : vocab_itos char_tokenizer ["ba"] = ["<unk>", "<pad>", "a", "b"] := by decide
example : vocab_itos char_tokenizer ["abb"] = ["<unk>", "<pad>", "b", "a"] := by decide

/-! Order facts about the composite comparison. -/

lemma strLtB_asymm : ∀ (x y : List Char), strLtB x y = true → strLtB y x = false := by
  intro x
  induction x with
  | nil =>
    intro y h
    cases y with
    | nil => exact absurd h (by simp [strLtB])
    | cons b bs => rfl
  | cons a as ih =>
    intro y h
    cases y with
    | nil => exact absurd h (by simp [strLtB])
    | cons b bs =>
      by_cases hab : a < b
      · simp only [strLtB, if_neg (lt_asymm hab), if_pos hab]
      · by_cases hba : b < a
        · exact absurd h (by simp [strLtB, hab, hba])
        · simp only [strLtB, if_neg hab, if_neg hba] at h ⊢
          exact ih bs h

lemma strLtB_or : ∀ (x y z : List Char), strLtB x z = true →
    strLtB x y = true ∨ strLtB y z = true := by
  intro x
  induction x with
  | nil =>
    intro y z h
    cases z with
    | nil => exact absurd h (by simp [strLtB])
    | cons c cs =>
      cases y with
      | nil => exact Or.inr (by simp [strLtB])
      | cons b bs => exact Or.inl (by simp [strLtB])
  | cons a as ih =>
    intro y z h
    cases z with
    | nil => exact absurd h (by simp [strLtB])
    | cons c cs =>
      cases y with
      | nil => exact Or.inr (by simp [strLtB])
      | cons b bs =>
        by_cases hac : a < c
        · rcases lt_trichotomy a b with hab | hab | hab
          · exact Or.inl (by simp [strLtB, hab])
          · subst hab
            exact Or.inr (by simp [strLtB, hac])
          · exact Or.inr (by simp [strLtB, lt_trans hab hac])
        · by_cases hca : c < a
          · exact absurd h (by simp [strLtB, hac, hca])
          · have hrec : strLtB as cs = true := by
              simpa [strLtB, hac, hca] using h
            have heq : a = c := le_antisymm (not_lt.mp hca) (not_lt.mp hac)
            subst heq
            rcases lt_trichotomy a b with hab | hab | hab
            · exact Or.inl (by simp [strLtB, hab])
            · subst hab
              rcases ih bs cs hrec with h1 | h1
              · exact Or.inl (by simpa [strLtB] using h1)
              · exact Or.inr (by simpa [strLtB] using h1)
            · exact Or.inr (by simp [strLtB, hab])

lemma vocabLe_total : ∀ (a b : String × Nat), vocabLe a b ∨ vocabLe b a := by
  intro a b
  rcases lt_trichotomy a.2 b.2 with h | h | h
  · exact Or.inr (Or.inl h)
  · by_cases hlt : strLtB b.1.data a.1.data = true
    · exact Or.inr (Or.inr ⟨h.symm, by simp [strLeB, strLtB_asymm _ _ hlt]⟩)
    · exact Or.inl (Or.inr ⟨h, by simp [strLeB, Bool.not_eq_true] at hlt ⊢; exact hlt⟩)
  · exact Or.inl (Or.inl h)

lemma vocabLe_trans : ∀ (a b c : String × Nat),
    vocabLe a b → vocabLe b c → vocabLe a c := by
  intro a b c hab hbc
  rcases hab with h1 | ⟨h1, h1'⟩
  · rcases hbc with h2 | ⟨h2, _⟩
    · exact Or.inl (lt_trans h2 h1)
    · exact Or.inl (h2 ▸ h1)
  · rcases hbc with h2 | ⟨h2, h2'⟩
    · exact Or.inl (lt_of_lt_of_eq h2 h1.symm)
    · refine Or.inr ⟨h1.trans h2, ?_⟩
      simp only [strLeB, Bool.not_eq_true'] at h1' h2' ⊢
      by_cases hca : strLtB c.1.data a.1.data = true
      · rcases strLtB_or c.1.data b.1.data a.1.data hca with h | h
        · rw [h] at h2'
          exact absurd h2' (by simp)
        · rw [h] at h1'
          exact absurd h1' (by simp)
      · simpa using hca

instance : IsTotal (String × Nat) vocabLe := ⟨vocabLe_total⟩

instance : IsTrans (String × Nat) vocabLe := ⟨fun a b c => vocabLe_trans a b c⟩

/-! Duplicate-freedom of the built vocabulary. -/

lemma counter_update_keys (c : List (String × Nat)) (t : String) :
    (counter_update c t).map (fun p => p.1) =
      if c.any (fun p => p.1 = t) then c.map (fun p => p.1)
      else c.map (fun p => p.1) ++ [t] := by
  unfold counter_update
  split
  · rw [List.map_map]
    apply List.map_congr_left
    intro p _
    by_cases hpt : p.1 = t <;> simp [hpt]
  · simp

lemma counter_update_nodup (c : List (String × Nat)) (t : String)
    (h : (c.map (fun p => p.1)).Nodup) :
    ((counter_update c t).map (fun p => p.1)).Nodup := by
  rw [counter_update_keys]
  by_cases hany : c.any (fun p => p.1 = t)
  · rwa [if_pos hany]
  · rw [if_neg hany]
    rw [List.nodup_append]
    refine ⟨h, List.nodup_singleton t, ?_⟩
    intro a ha hb
    simp only [List.mem_singleton] at hb
    subst hb
    simp only [List.mem_map] at ha
    obtain ⟨p, hp, hpt⟩ := ha
    simp only [List.any_eq_true, decide_eq_true_eq, not_exists, not_and] at hany
    exact hany p hp hpt

lemma counter_foldl_nodup (ts : List String) :
    ∀ (c : List (String × Nat)), (c.map (fun p => p.1)).Nodup →
      ((ts.foldl counter_update c).map (fun p => p.1)).Nodup := by
  induction ts with
  | nil => intro c h; exact h
  | cons t ts ih =>
    intro c h
    exact ih (counter_update c t) (counter_update_nodup c t h)

lemma counter_of_nodup (tokenizer : String → List String) (corpus : List String) :
    ((counter_of tokenizer corpus).map (fun p => p.1)).Nodup := by
  unfold counter_of
  have h : ∀ (cs : List String) (c : List (String × Nat)),
      (c.map (fun p => p.1)).Nodup →
      ((cs.foldl (fun c line => (tokenizer line).foldl counter_update c) c).map
        (fun p => p.1)).Nodup := by
    intro cs
    induction cs with
    | nil => intro c hc; exact hc
    | cons line cs ih =>
      intro c hc
      exact ih _ (counter_foldl_nodup (tokenizer line) c hc)
  simpa using h corpus [] (by simp)

lemma words_keys_nodup (c : List (String × Nat))
    (h : (c.map (fun p => p.1)).Nodup) :
    ((words_and_frequencies c).map (fun p => p.1)).Nodup := by
  unfold words_and_frequencies
  have hsub1 : List.Sublist (c.filter (fun q => ¬ q.1 ∈ specials)) c := List.filter_sublist c
  have h1 : ((c.filter (fun q => ¬ q.1 ∈ specials)).map (fun q => q.1)).Nodup :=
    (hsub1.map (fun q => q.1)).nodup h
  have h2 : ((List.insertionSort vocabLe
      (c.filter (fun q => ¬ q.1 ∈ specials))).map (fun q => q.1)).Nodup :=
    (((List.perm_insertionSort vocabLe _).map (fun q => q.1)).nodup_iff).mpr h1
  have hsub2 : List.Sublist
      ((List.insertionSort vocabLe
        (c.filter (fun q => ¬ q.1 ∈ specials))).takeWhile (fun q => 1 ≤ q.2))
      (List.insertionSort vocabLe (c.filter (fun q => ¬ q.1 ∈ specials))) :=
    List.takeWhile_sublist _
  exact (hsub2.map (fun q => q.1)).nodup h2

lemma words_not_special (c : List (String × Nat)) (p : String × Nat)
    (hp : p ∈ words_and_frequencies c) : ¬ p.1 ∈ specials := by
  unfold words_and_frequencies at hp
  have hsub : List.Sublist
      ((List.insertionSort vocabLe
        (c.filter (fun q => ¬ q.1 ∈ specials))).takeWhile (fun q => 1 ≤ q.2))
      (List.insertionSort vocabLe (c.filter (fun q => ¬ q.1 ∈ specials))) :=
    List.takeWhile_sublist _
  have h1 := hsub.subset hp
  have h2 := (List.perm_insertionSort vocabLe
    (c.filter (fun q => ¬ q.1 ∈ specials))).mem_iff.mp h1
  have h3 := List.of_mem_filter h2
  simpa using h3

lemma vocab_itos_nodup (tokenizer : String → List String) (corpus : List String) :
    (vocab_itos tokenizer corpus).Nodup := by
  unfold vocab_itos
  rw [List.nodup_append]
  refine ⟨by decide, words_keys_nodup _ (counter_of_nodup tokenizer corpus), ?_⟩
  intro a ha hb
  simp only [List.mem_map] at hb
  obtain ⟨p, hp, hpa⟩ := hb
  exact words_not_special _ p hp (hpa ▸ ha)

/-- The sorted order of the built word list, with ties strict: descending
frequency, and on equal frequencies distinct tokens in ascending
lexicographic order. -/
lemma words_pairwise (tokenizer : String → List String) (corpus : List String) :
    List.Pairwise
      (fun a b : String × Nat => b.2 < a.2 ∨ (a.2 = b.2 ∧ a.1 ≠ b.1 ∧ strLeB a.1 b.1 = true))
      (words_and_frequencies (counter_of tokenizer corpus)) := by
  have hsorted : List.Sorted vocabLe
      (List.insertionSort vocabLe
        ((counter_of tokenizer corpus).filter (fun p => ¬ p.1 ∈ specials))) :=
    List.sorted_insertionSort vocabLe _
  have hsorted' : List.Pairwise vocabLe
      (words_and_frequencies (counter_of tokenizer corpus)) :=
    hsorted.sublist (List.takeWhile_sublist _)
  have hnodup : ((words_and_frequencies (counter_of tokenizer corpus)).map
      (fun p => p.1)).Nodup :=
    words_keys_nodup _ (counter_of_nodup tokenizer corpus)
  have hne : List.Pairwise (fun a b : String × Nat => a.1 ≠ b.1)
      (words_and_frequencies (counter_of tokenizer corpus)) :=
    List.pairwise_map.mp hnodup
  refine (hsorted'.and hne).imp ?_
  intro a b hab
  rcases hab with ⟨h1 | ⟨h1, h1'⟩, h2⟩
  · exact Or.inl h1
  · exact Or.inr ⟨h1, h2, h1'⟩

/-- C8 (amended): the torchtext build reserves id 0 for `<unk>` (and id 1 for
the default special `<pad>`), produces a duplicate-free `itos` whose ids are
the dense range `[0, vocab_size)` (every stored symbol's id is in range and
every id is some symbol's id), and orders the words by descending frequency —
but ties between distinct equal-frequency tokens are broken alphabetically
(ascending lexicographic token order, "sort by frequency, then
alphabetically"), not by first-seen order as the original claim states. -/
theorem C8_vocab_build (tokenizer : String → List String) (corpus : List String) :
    (vocab_itos tokenizer corpus)[0]? = some "<unk>" ∧
    (vocab_itos tokenizer corpus).Nodup ∧
    List.Pairwise
      (fun a b : String × Nat => b.2 < a.2 ∨ (a.2 = b.2 ∧ a.1 ≠ b.1 ∧ strLeB a.1 b.1 = true))
      (words_and_frequencies (counter_of tokenizer corpus)) ∧
    vocab_itos tokenizer corpus =
      specials ++ (words_and_frequencies (counter_of tokenizer corpus)).map (fun p => p.1) ∧
    (∀ s ∈ vocab_itos tokenizer corpus,
      stoi (vocab_itos tokenizer corpus) s < (vocab_itos tokenizer corpus).length) ∧
    (∀ i, i < (vocab_itos tokenizer corpus).length →
      ∃ s ∈ vocab_itos tokenizer corpus, stoi (vocab_itos tokenizer corpus) s = i) := by
  refine ⟨rfl, vocab_itos_nodup tokenizer corpus, words_pairwise tokenizer corpus,
    rfl, ?_, ?_⟩
  · intro s hs
    exact stoi_lt_length _ s (vocab_itos_nodup tokenizer corpus) hs
  · intro i hi
    have hnd := vocab_itos_nodup tokenizer corpus
    have hmem : (vocab_itos tokenizer corpus)[i] ∈ vocab_itos tokenizer corpus :=
      List.getElem_mem hi
    have hlt : (vocab_itos tokenizer corpus).indexOf (vocab_itos tokenizer corpus)[i] <
        (vocab_itos tokenizer corpus).length := List.indexOf_lt_length.mpr hmem
    have heq : (vocab_itos tokenizer corpus)[(vocab_itos tokenizer corpus).indexOf
        (vocab_itos tokenizer corpus)[i]] = (vocab_itos tokenizer corpus)[i] :=
      List.getElem_indexOf hlt
    refine ⟨(vocab_itos tokenizer corpus)[i], hmem, ?_⟩
    rw [stoi_eq_indexOf _ _ hnd hmem]
    exact (List.Nodup.getElem_inj_iff hnd).mp heq

/-- C8 counterexample: in the corpus ["ba"], the symbols "b" and "a" have
equal frequency 1 and "b" is seen first, so the claim's first-seen tie-break
would assign "b" the smaller id; the build instead sorts the tie
alphabetically and assigns "a" the smaller id. -/
theorem C8_counterexample :
    counter_of char_tokenizer ["ba"] = [("b", 1), ("a", 1)] ∧
    vocab_itos char_tokenizer ["ba"] = ["<unk>", "<pad>", "a", "b"] ∧
    stoi (vocab_itos char_tokenizer ["ba"]) "a" = 2 ∧
    stoi (vocab_itos char_tokenizer ["ba"]) "b" = 3 := by
  refine ⟨by decide, by decide, by decide, by decide⟩

/-- C8 witness: the amended theorem applied to the corpus ["ba"]; id 2 of
the dense range is realized by some stored symbol. -/
theorem C8_witness :
    2 < (vocab_itos char_tokenizer ["ba"]).length ∧
    (∃ s ∈ vocab_itos char_tokenizer ["ba"],
      stoi (vocab_itos char_tokenizer ["ba"]) s = 2) :=
  ⟨by decide, (C8_vocab_build char_tokenizer ["ba"]).2.2.2.2.2 2 (by decide)⟩

/-- C9: for every symbol the vocabulary was built from (every entry of the
built `itos`), decoding the id that encode assigns to it returns the symbol
again: `itos[stoi[s]] == s`. -/
theorem C9_round_trip (tokenizer : String → List String) (corpus : List String)
    (s : String) (hmem : s ∈ vocab_itos tokenizer corpus) :
    pyGet (vocab_itos tokenizer corpus)
      (stoi (vocab_itos tokenizer corpus) s : Int) = .ok s := by
  have hnd := vocab_itos_nodup tokenizer corpus
  have hlt := stoi_lt_length _ s hnd hmem
  rw [pyGet_nat _ _ hlt]
  have h := getElem_stoi _ s hnd hmem
  rw [List.getD_eq_getElem?_getD, h]
  rfl

/-- C9 witness: the round trip applied to the symbol "b" of the vocabulary
built from ["ba"]. -/
theorem C9_witness :
    "b" ∈ vocab_itos char_tokenizer ["ba"] ∧
    pyGet (vocab_itos char_tokenizer ["ba"])
      (stoi (vocab_itos char_tokenizer ["ba"]) "b" : Int) = .ok "b" :=
  ⟨by decide, C9_round_trip char_tokenizer ["ba"] "b" (by decide)⟩

/-! The temperature sampler `generate_soft`. The scalars that flow through
`div`/`exp` are modelled as IEEE-style extended values over `ℝ`: a finite
float is an exact real number, and division by zero or exponentiation
produce the special values a float pipeline would. -/

/-- A floating-point value as the sampling pipeline sees it: finite,
positive or negative infinity, or NaN. -/
inductive F where
  | fin : ℝ → F
  | inf : F
  | ninf : F
  | nan : F

open Classical in
/-- Float division as used in `out[0][-1].div(temperature)`: a finite value
divided by zero gives a signed infinity (NaN for 0/0). Only finite operands
occur on the embedded code path, so the non-finite cases are collapsed to
NaN. -/
noncomputable def F.div : F → F → F
  | .fin a, .fin b =>
    if b = 0 then (if 0 < a then .inf else if a < 0 then .ninf else .nan)
    else .fin (a / b)
  | _, _ => .nan

/-- Float `exp` as applied elementwise by `.exp()`: `exp(inf) = inf`,
`exp(-inf) = 0`, `exp(nan) = nan`. -/
noncomputable def F.exp : F → F
  | .fin a => .fin (Real.exp a)
  | .inf => .inf
  | .ninf => .fin 0
  | .nan => .nan

/-- The real value of a finite float (junk 0 for the non-finite values; used
once finiteness is established). -/
def F.val : F → ℝ
  | .fin x => x
  | _ => 0

/-- A weight `torch.multinomial` accepts: finite and non-negative. -/
def F.goodWeight : F → Prop
  | .fin x => 0 ≤ x
  | _ => False

/-- The unnormalized categorical weights of one `generate_soft` step:
`out_dist = out[0][-1].div(temperature).exp()`, elementwise. -/
noncomputable def softWeights (T : ℚ) (logits : List ℚ) : List F :=
  logits.map (fun (l : ℚ) => F.exp (F.div (.fin (l : ℝ)) (.fin (T : ℝ))))

open Classical in
/-- `torch.multinomial(out_dist, 1)[0]`: the library validates the weight
vector — every entry finite and non-negative, positive total mass — and
raises a `RuntimeError` otherwise; the draw itself is the external random
source, supplied as the index `pick` it returns for this call. -/
noncomputable def multinomial (ws : List F) (pick : Nat) : Except Err Nat :=
  if (∀ w ∈ ws, F.goodWeight w) ∧ 0 < (ws.map F.val).sum then .ok pick
  else .error .multinomialInvalid

/-- The loop body of `generate_soft`: read `out[0][-1]`, scale by
`temperature` and exponentiate, draw one index with `multinomial`, decode
via `vocab.itos[nc]`, append, and feed the id plus state back into the
model. The counter `i` numbers the steps so the random source is a fixed
injectable stream. -/
noncomputable def gen_soft_loop (net : LSTMGenerator σ) (itos : List String) (T : ℚ)
    (rng : Nat → Nat) :
    Nat → Nat → List (List ℚ) → σ → List String → Except Err (List String)
  | _, 0, _, _, chars => .ok chars
  | i, n + 1, out, s, chars =>
    match out.getLast? with
    | none => .error .outOfRange
    | some logits =>
      match multinomial (softWeights T logits) (rng i) with
      | .error e => .error e
      | .ok nc =>
        match pyGet itos (nc : Int) with
        | .error e => .error e
        | .ok sym =>
          let r := forward net [nc] s
          gen_soft_loop net itos T rng (i + 1) n r.1 r.2 (chars ++ [sym])

/-- Notebook 5's `generate_soft(net, size, start, temperature)`: identical
priming to `generate`, then `size` sampled steps; `size` is a Python `int`
and `range` of a non-positive value is empty. -/
noncomputable def generate_soft (net : LSTMGenerator σ) (itos : List String)
    (size : Int) (start : String) (T : ℚ) (rng : Nat → Nat) : Except Err String :=
  let chars := char_tokenizer start
  let r := forward net (enc_list itos chars) net.s0
  (gen_soft_loop net itos T rng 0 size.toNat r.1 r.2 chars).map String.join

/-- The documented draw distribution of `torch.multinomial` over a weight
vector: index `i` is drawn with probability `w_i / Σ w`. -/
noncomputable def categorical_prob (ws : List ℝ) (i : Nat) : ℝ :=
  ws.getD i 0 / ws.sum

/-- The per-step draw distribution of `generate_soft` at temperature `T`. -/
noncomputable def soft_step_prob (T : ℚ) (logits : List ℚ) (i : Nat) : ℝ :=
  categorical_prob ((softWeights T logits).map F.val) i

/-- The softmax of a logits vector, written independently of the sampler. -/
noncomputable def softmax (logits : List ℚ) (i : Nat) : ℝ :=
  Real.exp ((logits.getD i 0 : ℚ) : ℝ) /
    (logits.map (fun l => Real.exp ((l : ℚ) : ℝ))).sum

lemma isOk_map {α β : Type} (e : Except Err α) (f : α → β) :
    (e.map f).isOk = e.isOk := by
  cases e <;> rfl

lemma join_char_tokenizer (s : String) : String.join (char_tokenizer s) = s := by
  apply String.ext
  have h : ∀ (cs : List Char) (acc : String),
      ((cs.map String.singleton).foldl (fun r t => r ++ t) acc).data = acc.data ++ cs := by
    intro cs
    induction cs with
    | nil => intro acc; simp
    | cons c cs ih =>
      intro acc
      simp only [List.map_cons, List.foldl_cons, ih, String.data_append]
      simp [String.singleton]
  have h2 := h s.data ""
  simpa [String.join, char_tokenizer] using h2

lemma F.div_fin (a b : ℝ) :
    F.div (.fin a) (.fin b) =
      if b = 0 then (if 0 < a then .inf else if a < 0 then .ninf else .nan)
      else .fin (a / b) := rfl

/-- For a nonzero temperature every weight is the finite value
`exp(logit / T)`. -/
lemma softWeights_ne_zero (T : ℚ) (hT : T ≠ 0) (logits : List ℚ) :
    softWeights T logits =
      logits.map (fun (l : ℚ) => F.fin (Real.exp ((l : ℝ) / (T : ℝ)))) := by
  unfold softWeights
  apply List.map_congr_left
  intro l _
  have hT' : ((T : ℝ)) ≠ 0 := by
    simpa using hT
  rw [F.div_fin, if_neg hT']
  rfl

/-- At a nonzero temperature the weight vector of a step over a nonempty
logits row passes `torch.multinomial`'s validation. -/
lemma multinomial_ok (T : ℚ) (hT : T ≠ 0) (logits : List ℚ) (hne : logits ≠ [])
    (pick : Nat) :
    multinomial (softWeights T logits) pick = .ok pick := by
  unfold multinomial
  rw [if_pos]
  constructor
  · intro w hw
    rw [softWeights_ne_zero T hT] at hw
    simp only [List.mem_map] at hw
    obtain ⟨l, _, rfl⟩ := hw
    exact Real.exp_nonneg _
  · rw [softWeights_ne_zero T hT, List.map_map]
    apply List.sum_pos
    · intro x hx
      simp only [List.mem_map] at hx
      obtain ⟨l, _, rfl⟩ := hx
      exact Real.exp_pos _
    · simpa using hne

/-- At temperature 0 the weight vector never passes validation: a
non-negative logit scales to `inf` or NaN, and if every logit is negative
every weight is `exp(-inf) = 0`, so the total mass is zero. -/
lemma multinomial_zero_temp (logits : List ℚ) (pick : Nat) :
    multinomial (softWeights 0 logits) pick = .error .multinomialInvalid := by
  unfold multinomial
  rw [if_neg]
  rintro ⟨hgood, hsum⟩
  by_cases hall : ∀ l ∈ logits, l < 0
  · have hval : (softWeights 0 logits).map F.val = logits.map (fun _ => (0 : ℝ)) := by
      unfold softWeights
      rw [List.map_map]
      apply List.map_congr_left
      intro l hl
      have hneg : ((l : ℚ) : ℝ) < 0 := by
        have := hall l hl
        rw [show ((0 : ℝ)) = ((0 : ℚ) : ℝ) by simp]
        exact_mod_cast this
      simp only [Function.comp_apply]
      rw [show ((0 : ℚ) : ℝ) = 0 from Rat.cast_zero, F.div_fin, if_pos rfl,
        if_neg (not_lt.mpr (le_of_lt hneg)), if_pos hneg]
      rfl
    rw [hval] at hsum
    simp at hsum
  · push_neg at hall
    obtain ⟨l, hl, hge⟩ := hall
    have hw : F.exp (F.div (.fin (l : ℝ)) (.fin ((0 : ℚ) : ℝ))) ∈ softWeights 0 logits :=
      List.mem_map_of_mem _ hl
    have hgw := hgood _ hw
    by_cases hpos : (0 : ℝ) < (l : ℝ)
    · have hwval : F.exp (F.div (.fin (l : ℝ)) (.fin ((0 : ℚ) : ℝ))) = F.inf := by
        rw [show ((0 : ℚ) : ℝ) = 0 from Rat.cast_zero, F.div_fin, if_pos rfl, if_pos hpos]
        rfl
      rw [hwval] at hgw
      exact hgw
    · have hzero : ((l : ℚ) : ℝ) = 0 :=
        le_antisymm (not_lt.mp hpos) (by exact_mod_cast hge)
      have hwval : F.exp (F.div (.fin (l : ℝ)) (.fin ((0 : ℚ) : ℝ))) = F.nan := by
        rw [show ((0 : ℚ) : ℝ) = 0 from Rat.cast_zero, F.div_fin, if_pos rfl,
          if_neg hpos, if_neg (by rw [hzero]; exact lt_irrefl 0)]
        rfl
      rw [hwval] at hgw
      exact hgw

/-- The sampling loop succeeds at any nonzero temperature: every weight is a
positive finite exponential, so each `multinomial` draw validates, and every
drawn index decodes. -/
lemma gen_soft_loop_ok (net : LSTMGenerator σ) (itos : List String) (T : ℚ)
    (rng : Nat → Nat) (hT : T ≠ 0)
    (hD : 0 < (net.W.zip net.b).length)
    (hrng : ∀ i, rng i < itos.length) :
    ∀ (n i : Nat) (out : List (List ℚ)) (s : σ) (chars : List String) (logits : List ℚ),
      out.getLast? = some logits → logits.length = (net.W.zip net.b).length →
      (gen_soft_loop net itos T rng i n out s chars).isOk = true := by
  intro n
  induction n with
  | zero =>
    intro i out s chars logits _ _
    rfl
  | succ n ih =>
    intro i out s chars logits hlast hlen
    have hne : logits ≠ [] := by
      intro hnil
      rw [hnil] at hlen
      simp only [List.length_nil] at hlen
      rw [← hlen] at hD
      exact Nat.lt_irrefl 0 hD
    have h1 : (forward net [rng i] s).1.getLast? = some ((step net (rng i) s).1) := by
      rw [show (forward net [rng i] s).1 = [(step net (rng i) s).1] from rfl]
      rfl
    have h2 : (step net (rng i) s).1.length = (net.W.zip net.b).length :=
      step_row_length net (rng i) s
    simp only [gen_soft_loop, hlast, multinomial_ok T hT logits hne (rng i),
      pyGet_nat itos (rng i) (hrng i)]
    exact ih (i + 1) (forward net [rng i] s).1 (forward net [rng i] s).2
      (chars ++ [itos.getD (rng i) ""]) (step net (rng i) s).1 h1 h2

/-- C2 (amended): `generate_soft` performs no explicit argument validation
and never raises the spec's `InvalidArgument` condition: any nonzero
temperature — negative values such as `-1` included — is accepted and the
sampler returns an output string; a non-positive `length` returns the seed
unchanged with no error; and `temperature = 0` fails with no output, but
only downstream at the first `multinomial` draw (division by zero makes the
weights non-finite or all zero), not through an immediate argument check. -/
theorem C2_no_validation :
    (∀ (σ : Type) (net : LSTMGenerator σ) (itos : List String) (size : Int)
      (start : String) (T : ℚ) (rng : Nat → Nat),
      T ≠ 0 → 0 < (net.W.zip net.b).length →
      (∀ i, rng i < itos.length) → start ≠ "" →
      (generate_soft net itos size start T rng).isOk = true) ∧
    (∀ (σ : Type) (net : LSTMGenerator σ) (itos : List String) (size : Int)
      (start : String) (T : ℚ) (rng : Nat → Nat),
      size ≤ 0 → start ≠ "" → generate_soft net itos size start T rng = .ok start) ∧
    (∀ (σ : Type) (net : LSTMGenerator σ) (itos : List String) (size : Int)
      (start : String) (rng : Nat → Nat),
      1 ≤ size → start ≠ "" →
      generate_soft net itos size start 0 rng = .error .multinomialInvalid) := by
  have hprime : ∀ (σ : Type) (net : LSTMGenerator σ) (itos : List String) (start : String),
      start ≠ "" →
      (forward net (enc_list itos (char_tokenizer start)) net.s0).1.getLast? =
        some ((forward net (enc_list itos (char_tokenizer start)) net.s0).1.getLastD []) ∧
      ((forward net (enc_list itos (char_tokenizer start)) net.s0).1.getLastD []).length =
        (net.W.zip net.b).length := by
    intro σ net itos start hstart
    have hlen : (forward net (enc_list itos (char_tokenizer start)) net.s0).1.length =
        (char_tokenizer start).length := by
      rw [forward_length]
      simp [enc_list]
    have hcne : (char_tokenizer start).length ≠ 0 := by
      simp only [char_tokenizer, List.length_map, ne_eq, List.length_eq_zero]
      intro h
      exact hstart (String.ext_iff.mpr h)
    have hne : (forward net (enc_list itos (char_tokenizer start)) net.s0).1 ≠ [] := by
      intro h
      rw [h] at hlen
      exact hcne hlen.symm
    exact ⟨getLast?_eq_getLastD _ [] hne,
      forward_row_length net (enc_list itos (char_tokenizer start)) net.s0 _
        (getLastD_mem _ [] hne)⟩
  refine ⟨?_, ?_, ?_⟩
  · intro σ net itos size start T rng hT hD hrng hstart
    obtain ⟨hlast, hrowlen⟩ := hprime σ net itos start hstart
    simp only [generate_soft]
    rw [isOk_map]
    exact gen_soft_loop_ok net itos T rng hT hD hrng size.toNat 0 _ _ _ _ hlast hrowlen
  · intro σ net itos size start T rng hsz _
    have h0 : size.toNat = 0 := Int.toNat_of_nonpos hsz
    simp only [generate_soft, h0, gen_soft_loop, Except.map]
    rw [join_char_tokenizer]
  · intro σ net itos size start rng hsz hstart
    obtain ⟨hlast, _⟩ := hprime σ net itos start hstart
    have hm : size.toNat = (size.toNat - 1) + 1 := by omega
    simp only [generate_soft]
    rw [hm]
    simp only [gen_soft_loop, hlast, multinomial_zero_temp]
    rfl

/-- C2 counterexample: with `temperature = -1`, a valid seed and one
generation step, `generate_soft` succeeds and produces output; the claim
requires it to fail with `InvalidArgument` and return nothing. -/
theorem C2_counterexample :
    (generate_soft exNet ["<unk>", "a", "b", " "] 1 "a" (-1) (fun _ => 0)).isOk = true := by
  simp only [generate_soft]
  rw [isOk_map]
  have hlast : (forward exNet (enc_list ["<unk>", "a", "b", " "]
      (char_tokenizer "a")) exNet.s0).1.getLast? = some [0, 0, 1, 0] := by
    norm_num [forward, rnn_run, fc, dotQ, one_hot, enc_list, char_tokenizer, stoi, exNet]
  have hrng : ∀ i : Nat, (fun _ : Nat => (0 : Nat)) i <
      (["<unk>", "a", "b", " "] : List String).length := by
    intro i
    norm_num
  exact gen_soft_loop_ok exNet ["<unk>", "a", "b", " "] (-1) (fun _ => 0)
    (by norm_num) (by decide) hrng
    (1 : Int).toNat 0 _ _ _ [0, 0, 1, 0] hlast (by decide)

/-- C2 witness: the amended theorem applied concretely — a non-positive
length returns the seed unchanged, and temperature 0 fails at the first
draw. -/
theorem C2_witness :
    generate_soft exNet ["<unk>", "a", "b", " "] (-3) "a" 2 (fun _ => 0) = .ok "a" ∧
    generate_soft exNet ["<unk>", "a", "b", " "] 1 "a" 0 (fun _ => 0) =
      .error .multinomialInvalid :=
  ⟨C2_no_validation.2.1 Unit exNet ["<unk>", "a", "b", " "] (-3) "a" 2 (fun _ => 0)
    (by decide) (by decide),
   C2_no_validation.2.2 Unit exNet ["<unk>", "a", "b", " "] 1 "a" (fun _ => 0)
    (by decide) (by decide)⟩

/-- A step's draw distribution at a nonzero temperature: index `i` has
probability `exp(logit_i / T)` over the sum of all `exp(logit / T)`. -/
lemma soft_step_prob_eq (T : ℚ) (hT : T ≠ 0) (logits : List ℚ) (i : Nat)
    (hi : i < logits.length) :
    soft_step_prob T logits i =
      Real.exp (((logits.getD i 0 : ℚ) : ℝ) / (T : ℝ)) /
        (logits.map (fun (l : ℚ) => Real.exp ((l : ℝ) / (T : ℝ)))).sum := by
  unfold soft_step_prob categorical_prob
  rw [softWeights_ne_zero T hT, List.map_map]
  have hcomp : (F.val ∘ fun (l : ℚ) => F.fin (Real.exp ((l : ℝ) / (T : ℝ)))) =
      fun (l : ℚ) => Real.exp ((l : ℝ) / (T : ℝ)) := rfl
  rw [hcomp]
  congr 1
  rw [List.getD_eq_getElem _ _ (by simpa using hi), List.getElem_map,
    List.getD_eq_getElem _ _ hi]

/-- C3: at each sampling step of `generate_soft` the unnormalized weights
are exactly `exp(logits / temperature)` elementwise, the next index is drawn
with probability `weight_i / Σ weights`, and at `temperature = 1` that
distribution is exactly the softmax of the model's logits. -/
theorem C3_temperature_distribution (T : ℚ) (logits : List ℚ) (hT : 0 < T) :
    softWeights T logits =
      logits.map (fun (l : ℚ) => F.fin (Real.exp ((l : ℝ) / (T : ℝ)))) ∧
    (∀ i, i < logits.length →
      soft_step_prob T logits i =
        Real.exp (((logits.getD i 0 : ℚ) : ℝ) / (T : ℝ)) /
          (logits.map (fun (l : ℚ) => Real.exp ((l : ℝ) / (T : ℝ)))).sum) ∧
    (T = 1 → ∀ i, i < logits.length → soft_step_prob T logits i = softmax logits i) := by
  have hT' : T ≠ 0 := ne_of_gt hT
  refine ⟨softWeights_ne_zero T hT' logits, ?_, ?_⟩
  · intro i hi
    exact soft_step_prob_eq T hT' logits i hi
  · intro h1 i hi
    subst h1
    rw [soft_step_prob_eq 1 one_ne_zero logits i hi]
    unfold softmax
    norm_num

/-- C3 witness: the distribution at temperature 1 over the logits `[0, 1]`
equals the softmax at index 0. -/
theorem C3_witness :
    (0 : ℚ) < 1 ∧ soft_step_prob 1 [0, 1] 0 = softmax [0, 1] 0 :=
  ⟨by norm_num,
   (C3_temperature_distribution 1 [0, 1] (by norm_num)).2.2 rfl 0 (by norm_num)⟩

end NlpGen
